import Mathlib

/-!
Shallow embedding of the reth block-building core:
* `crates/transaction-pool/src/pool/best.rs` — the best-transactions iterator
  (`BestTransactions`, `BestTransactionsWithFees`),
* `crates/engine/tree/src/tree/memory_overlay.rs` — the memory-overlay state provider,
* `crates/evm/src/system_calls.rs` — EIP-4788 / EIP-7002 system contract calls,
* `crates/rpc/rpc-eth-api/src/helpers/pending_block.rs` — the pending-block build loop.

Machine integers are modelled as `Nat` (no arithmetic in the embedded code can
overflow the source's `u64`/`u128` ranges on the inputs considered, and the
source checks are pure comparisons).  Addresses, hashes and 256-bit words are
modelled as `Nat`.  Fallible code returns `Except`; the EVM collaborator
(`evm.transact()`) is an explicit oracle parameter.
-/

namespace RethSpec

/-! ## Transaction-pool data model (`best.rs`)

A `ValidPoolTransaction` together with the fields the iterator and the build
loop inspect: sender and nonce (the `TransactionId`), the hash, the EIP-4844
discriminant and blob gas, the fee fields, the gas limit, the pluggable
priority (`TransactionOrdering`), and the `origin.is_private()` flag. -/

structure PoolTx where
  sender : Nat
  nonce : Nat
  hash : Nat
  isBlob : Bool
  maxFeePerGas : Nat
  maxFeePerBlobGas : Option Nat
  gasLimit : Nat
  blobGas : Nat
  priority : Nat
  isPrivate : Bool
deriving DecidableEq, Repr

/-- Ordering key used by the `independent` BTreeSet (`TransactionOrdering`
priority with deterministic tie-breakers).  The iterator is generic over any
strict total order; the tie-breakers stand in for the unique submission id. -/
def txKey (t : PoolTx) : Nat × Nat × Nat × Nat :=
  (t.priority, t.sender, t.nonce, t.hash)

/-- `a ≤ b` in the `independent` set's order. -/
def keyLe (a b : PoolTx) : Bool :=
  decide (txKey a ≤ txKey b)

/-- `BTreeSet::pop_last`: remove and return the greatest element. -/
def popMax : List PoolTx → Option (PoolTx × List PoolTx)
  | [] => none
  | t :: ts =>
    match popMax ts with
    | none => some (t, [])
    | some (m, rest) => if keyLe m t then some (t, m :: rest) else some (m, t :: rest)

/-- `BTreeMap<TransactionId, _>::get` keyed by `(sender, nonce)`. -/
def allLookup (all : List PoolTx) (s n : Nat) : Option PoolTx :=
  all.find? (fun t => t.sender == s && t.nonce == n)

/-- `BTreeMap::insert` at key `(sender, nonce)` (replaces an existing entry). -/
def allInsert (all : List PoolTx) (t : PoolTx) : List PoolTx :=
  t :: all.filter (fun u => !(u.sender == t.sender && u.nonce == t.nonce))

/-- `BTreeSet::insert` (no duplicates). -/
def indInsert (ind : List PoolTx) (t : PoolTx) : List PoolTx :=
  if t ∈ ind then ind else t :: ind

/-- `HashSet<TxHash>::insert`. -/
def hashInsert (h : Nat) (inv : List Nat) : List Nat :=
  if h ∈ inv then inv else h :: inv

/-- State of the `BestTransactions` iterator.  `newTxReceiver` models the
broadcast receiver as the queue of messages currently available to
`try_recv` (`none` after `no_updates` dropped it). -/
structure BestState where
  all : List PoolTx
  independent : List PoolTx
  invalid : List Nat
  newTxReceiver : Option (List PoolTx)
  skipBlobs : Bool
deriving DecidableEq, Repr

/-- `BestTransactions::mark_invalid`: insert the transaction's hash into the
invalid set (nothing else). -/
def markInvalid (st : BestState) (t : PoolTx) : BestState :=
  { st with invalid := hashInsert t.hash st.invalid }

/-- `BestTransactions::ancestor` composed with `TransactionId::unchecked_ancestor`:
the pool entry at `(sender, nonce - 1)`, or `none` at nonce 0. -/
def ancestorOf (all : List PoolTx) (t : PoolTx) : Option PoolTx :=
  if t.nonce = 0 then none else allLookup all t.sender (t.nonce - 1)

/-- Body of the `add_new_transactions` drain loop for one arrival:
if the arrival's ancestor is absent from `all` it goes into `independent`;
it is always inserted into `all`. -/
def addArrival (st : BestState) (t : PoolTx) : BestState :=
  let st :=
    if (ancestorOf st.all t).isNone then { st with independent := indInsert st.independent t }
    else st
  { st with all := allInsert st.all t }

/-- `BestTransactions::add_new_transactions`: drain the receiver
(non-blocking) and insert every arrival. -/
def addNewTransactions (st : BestState) : BestState :=
  match st.newTxReceiver with
  | none => st
  | some queue => queue.foldl addArrival { st with newTxReceiver := some [] }

/-- Result of one iteration of the `loop` inside
`<BestTransactions as Iterator>::next`: a yielded transaction
(`return Some(..)`), end of iteration (`return None` via `?`), or a
`continue`. -/
inductive NextStep where
  | yield (t : PoolTx) (st : BestState)
  | exhausted (st : BestState)
  | again (st : BestState)
deriving Repr

/-- The iterator state right after `pop_last` removed the popped element. -/
def popped (st1 : BestState) (rest : List PoolTx) : BestState :=
  { st1 with independent := rest }

/-- The unlock step of `next`: insert the `(sender, nonce + 1)` entry of
`all` (if any) into `independent`. -/
def unlockSucc (st2 : BestState) (best : PoolTx) : BestState :=
  match allLookup st2.all best.sender (best.nonce + 1) with
  | some unlocked => { st2 with independent := indInsert st2.independent unlocked }
  | none => st2

/-- One iteration of the `loop` in `next`: drain arrivals, pop the greatest
independent transaction (end of iteration if none), skip it if marked
invalid (without unlocking its successor), otherwise unlock the
`(sender, nonce + 1)` entry of `all`, and either yield it or — when
`skip_blobs` is set and it is an EIP-4844 transaction — mark it invalid and
continue. -/
def nextStep (st0 : BestState) : NextStep :=
  let st1 := addNewTransactions st0
  match popMax st1.independent with
  | none => .exhausted st1
  | some (best, rest) =>
    let st2 := popped st1 rest
    if best.hash ∈ st2.invalid then .again st2
    else
      let st3 := unlockSucc st2 best
      if st3.skipBlobs && best.isBlob then .again (markInvalid st3 best)
      else .yield best st3

/-- The iterator state carried by a step result. -/
def NextStep.state : NextStep → BestState
  | .yield _ st => st
  | .exhausted st => st
  | .again st => st

/-- The `loop` of `<BestTransactions as Iterator>::next`, with explicit fuel
for its number of iterations. -/
def nextAux : Nat → BestState → Option PoolTx × BestState
  | 0, st => (none, st)
  | fuel + 1, st =>
    match nextStep st with
    | .exhausted st' => (none, st')
    | .yield t st' => (some t, st')
    | .again st' => nextAux fuel st'

/-- Fuel bound sufficient for every loop of `next` to run to completion. -/
def bestFuel (st : BestState) : Nat :=
  (match st.newTxReceiver with | none => 0 | some q => q.length) +
    st.independent.length + st.all.length + 1

/-- `<BestTransactions as Iterator>::next`. -/
def bestNext (st : BestState) : Option PoolTx × BestState :=
  nextAux (bestFuel st) st

/-- Operations a consumer (or the pool's producer side, via the broadcast
channel) can perform on a live `BestTransactions` iterator. -/
inductive PoolOp
  | next
  | markInvalid (t : PoolTx)
  | noUpdates
  | setSkipBlobs (b : Bool)
  | arrive (t : PoolTx)
deriving DecidableEq, Repr

/-- Apply one operation; `next` may yield a transaction. -/
def applyOp (st : BestState) : PoolOp → Option PoolTx × BestState
  | .next => bestNext st
  | .markInvalid t => (none, markInvalid st t)
  | .noUpdates => (none, { st with newTxReceiver := none })
  | .setSkipBlobs b => (none, { st with skipBlobs := b })
  | .arrive t => (none, { st with newTxReceiver := st.newTxReceiver.map (· ++ [t]) })

/-- Run a sequence of operations, collecting the yielded transactions. -/
def runOps (st : BestState) : List PoolOp → List PoolTx × BestState
  | [] => ([], st)
  | op :: ops =>
    let (y, st') := applyOp st op
    let (ys, st'') := runOps st' ops
    (y.toList ++ ys, st'')

/-! ## `BestTransactionsWithFees` (`best.rs` lines 21–65) -/

/-- State of the fee-enforcing wrapper: the inner iterator plus the
`base_fee` and `base_fee_per_blob_gas` attributes. -/
structure FeesState where
  best : BestState
  baseFee : Nat
  baseFeePerBlobGas : Nat
deriving DecidableEq, Repr

/-- The fee condition checked by `BestTransactionsWithFees::next`:
`max_fee_per_gas >= base_fee` and, when a blob fee is present,
`max_fee_per_blob_gas >= base_fee_per_blob_gas` (`map_or(true, ..)`). -/
def feeOk (baseFee baseFeePerBlobGas : Nat) (t : PoolTx) : Bool :=
  baseFee ≤ t.maxFeePerGas &&
    (match t.maxFeePerBlobGas with
     | none => true
     | some fee => baseFeePerBlobGas ≤ fee)

/-- One call of `<BestTransactionsWithFees as Iterator>::next` with explicit
fuel for its `loop`; besides the result and the final state it records the
transactions pulled from the inner iterator during the call.  A pull that
satisfies both fee bounds is returned; otherwise it is marked invalid on the
inner iterator and the loop continues. -/
def feesNextAux : Nat → FeesState → Option PoolTx × FeesState × List PoolTx
  | 0, fs => (none, fs, [])
  | fuel + 1, fs =>
    match bestNext fs.best with
    | (none, b') => (none, { fs with best := b' }, [])
    | (some t, b') =>
      if feeOk fs.baseFee fs.baseFeePerBlobGas t then
        (some t, { fs with best := b' }, [t])
      else
        let fs' : FeesState := { fs with best := markInvalid b' t }
        let r := feesNextAux fuel fs'
        (r.1, r.2.1, t :: r.2.2)

/-- Fuel bound for the wrapper's loop. -/
def feesFuel (fs : FeesState) : Nat :=
  bestFuel fs.best + fs.best.all.length + 1

/-- `<BestTransactionsWithFees as Iterator>::next`. -/
def feesNext (fs : FeesState) : Option PoolTx × FeesState :=
  let r := feesNextAux (feesFuel fs) fs
  (r.1, r.2.1)

/-- `BestTransactionsWithFees::mark_invalid` forwards to the inner iterator. -/
def feesMarkInvalid (fs : FeesState) (t : PoolTx) : FeesState :=
  { fs with best := markInvalid fs.best t }

/-- `BestTransactionsWithFees::skip_blobs` forwards `set_skip_blobs(true)`. -/
def feesSkipBlobs (fs : FeesState) : FeesState :=
  { fs with best := { fs.best with skipBlobs := true } }

/-! ## Memory-overlay state provider (`memory_overlay.rs`)

`ExecutedBlock` is modelled by the data the overlay reads from it: the sealed
block's number and hash, and the three lookup maps of its `execution_output`
bundle (`account` returns `Option (Option Account)` — the outer layer is
"does this block define the address", the inner layer is the tombstone for a
destroyed account).  Accounts, bytecodes, storage values, addresses, hashes
and slots are modelled as `Nat`. -/

structure ExecutedBlockM where
  number : Nat
  blockHash : Nat
  account : Nat → Option (Option Nat)
  storageSlot : Nat → Nat → Option Nat
  bytecode : Nat → Option Nat

/-- The historical `StateProvider` the overlay falls back to.  Every method
may fail with a provider error (modelled as `String`). -/
structure HistProvider where
  blockHash : Nat → Except String (Option Nat)
  basicAccount : Nat → Except String (Option Nat)
  storageSlot : Nat → Nat → Except String (Option Nat)
  bytecodeByHash : Nat → Except String (Option Nat)

/-- `MemoryOverlayStateProvider`: the in-memory blocks (oldest first) plus
the historical provider. -/
structure MemoryOverlay where
  inMemory : List ExecutedBlockM
  historical : HistProvider

/-- The `for block in self.in_memory.iter().rev()` scan: first defining
entry of the newest-first traversal. -/
def revScan (blocks : List ExecutedBlockM) (f : ExecutedBlockM → Option α) : Option α :=
  blocks.reverse.findSome? f

/-- `MemoryOverlayStateProvider::basic_account`. -/
def MemoryOverlay.basicAccount (p : MemoryOverlay) (address : Nat) :
    Except String (Option Nat) :=
  match revScan p.inMemory (fun b => b.account address) with
  | some account => .ok account
  | none => p.historical.basicAccount address

/-- `MemoryOverlayStateProvider::storage`. -/
def MemoryOverlay.storageSlot (p : MemoryOverlay) (address storageKey : Nat) :
    Except String (Option Nat) :=
  match revScan p.inMemory (fun b => b.storageSlot address storageKey) with
  | some value => .ok (some value)
  | none => p.historical.storageSlot address storageKey

/-- `MemoryOverlayStateProvider::bytecode_by_hash`. -/
def MemoryOverlay.bytecodeByHash (p : MemoryOverlay) (codeHash : Nat) :
    Except String (Option Nat) :=
  match revScan p.inMemory (fun b => b.bytecode codeHash) with
  | some contract => .ok (some contract)
  | none => p.historical.bytecodeByHash codeHash

/-- `MemoryOverlayStateProvider::block_hash`. -/
def MemoryOverlay.blockHashRead (p : MemoryOverlay) (number : Nat) :
    Except String (Option Nat) :=
  match revScan p.inMemory (fun b => if b.number = number then some b.blockHash else none) with
  | some h => .ok (some h)
  | none => p.historical.blockHash number

/-- Specification-side notion for claim C5: the definition recorded by the
newest in-memory block that defines the key (`inMemory` is ordered oldest to
newest, so a left fold keeps the latest definition). -/
def newestDef (blocks : List ExecutedBlockM) (f : ExecutedBlockM → Option α) : Option α :=
  blocks.foldl (fun acc b => match f b with | some v => some v | none => acc) none

/-- Outcome of a call that may `panic!` / `todo!`. -/
inductive CallOutcome (α : Type) where
  | value (a : α)
  | panicked (msg : String)
deriving DecidableEq, Repr

/-- `MemoryOverlayStateProvider::state_root` — the body is `todo!()`. -/
def MemoryOverlay.stateRoot (_p : MemoryOverlay) (_bundleState : List (Nat × Nat)) :
    CallOutcome Nat :=
  .panicked "not yet implemented"

/-- `MemoryOverlayStateProvider::state_root_with_updates` — the body is `todo!()`. -/
def MemoryOverlay.stateRootWithUpdates (_p : MemoryOverlay) (_bundleState : List (Nat × Nat)) :
    CallOutcome (Nat × List Nat) :=
  .panicked "not yet implemented"

/-- `MemoryOverlayStateProvider::proof` — the body is `todo!()`. -/
def MemoryOverlay.proof (_p : MemoryOverlay) (_address : Nat) (_slots : List Nat) :
    CallOutcome (List Nat) :=
  .panicked "not yet implemented"

/-! ## System contract calls (`system_calls.rs`)

The EVM collaborator is an oracle: `transact` is the outcome of
`evm.transact()` — either an `EVMError` (modelled as `String`) or a
`ResultAndState` whose state diff is an association list from address to an
abstract post-state.  The database is an association list committed to by
`HashMap`-style insertion. -/

def SYSTEM_ADDRESS : Nat := 0xfffffffffffffffffffffffffffffffffffffffe

/-- An EVM state diff (`revm` `State`): address to account post-state. -/
abbrev StateDiff : Type := List (Nat × Nat)

/-- `state.remove(&addr)`: drop the entry for the address. -/
def removeAddr (addr : Nat) (state : StateDiff) : StateDiff :=
  state.filter (fun kv => kv.1 ≠ addr)

/-- `db.commit(state)`: merge the diff into the database, diff entry wins. -/
def commitDiff (db : StateDiff) (state : StateDiff) : StateDiff :=
  state.foldl (fun acc kv => kv :: acc.filter (fun u => u.1 ≠ kv.1)) db

/-- `revm` `ExecutionResult`; outputs are byte lists. -/
inductive ExecResult where
  | Success (output : List Nat)
  | Revert (output : List Nat)
  | Halt (reason : String)
deriving DecidableEq, Repr

/-- `BlockValidationError` variants raised by the system calls. -/
inductive BlockValidationError where
  | MissingParentBeaconBlockRoot
  | CancunGenesisParentBeaconBlockRootNotZero (parentBeaconBlockRoot : Nat)
  | BeaconRootContractCall (parentBeaconBlockRoot : Nat) (message : String)
  | WithdrawalRequestsContractCall (message : String)
deriving DecidableEq, Repr

/-- Hex rendering of a byte, used by the `Display` of `Bytes` in the revert
message. -/
def hexDigit (n : Nat) : String :=
  (["0", "1", "2", "3", "4", "5", "6", "7", "8", "9",
    "a", "b", "c", "d", "e", "f"].getD (n % 16) "0")

/-- `0x…` rendering of a byte string (`Display` of `Bytes`). -/
def hexOfBytes (bytes : List Nat) : String :=
  "0x" ++ String.join (bytes.map (fun b => hexDigit (b / 16 % 16) ++ hexDigit b))

/-- `apply_beacon_root_contract_call` (EIP-4788).  `cancunActiveAt` is
`chain_spec.is_cancun_active_at_timestamp`; `transact` is the oracle for the
system-sender execution; the result is the committed database. -/
def apply_beacon_root_contract_call
    (cancunActiveAt : Nat → Bool) (blockTimestamp blockNumber : Nat)
    (parentBeaconBlockRoot : Option Nat)
    (transact : Except String (ExecResult × StateDiff))
    (coinbase : Nat) (db : StateDiff) :
    Except BlockValidationError StateDiff :=
  if !cancunActiveAt blockTimestamp then .ok db
  else
    match parentBeaconBlockRoot with
    | none => .error .MissingParentBeaconBlockRoot
    | some root =>
      if blockNumber = 0 then
        if root ≠ 0 then .error (.CancunGenesisParentBeaconBlockRootNotZero root)
        else .ok db
      else
        match transact with
        | .error e => .error (.BeaconRootContractCall root e)
        | .ok (_result, state) =>
          .ok (commitDiff db (removeAddr coinbase (removeAddr SYSTEM_ADDRESS state)))

/-- A parsed EIP-7002 `WithdrawalRequest`. -/
structure WithdrawalRequestM where
  sourceAddress : List Nat
  validatorPubkey : List Nat
  amount : Nat
deriving DecidableEq, Repr

/-- `WITHDRAWAL_REQUEST_SIZE`: 20-byte address + 48-byte pubkey + 8-byte
amount. -/
def WITHDRAWAL_REQUEST_SIZE : Nat := 20 + 48 + 8

/-- Big-endian `u64` of 8 bytes (`Buf::get_u64`). -/
def beU64 (bytes : List Nat) : Nat :=
  bytes.foldl (fun acc b => acc * 256 + b) 0

/-- Decode one 76-byte frame into a `WithdrawalRequest`. -/
def decodeFrame (bytes : List Nat) : WithdrawalRequestM :=
  { sourceAddress := bytes.take 20
    validatorPubkey := (bytes.drop 20).take 48
    amount := beU64 ((bytes.drop 68).take 8) }

/-- The `while data.has_remaining()` parse loop of
`apply_withdrawal_requests_contract_call`: read 76-byte frames to EOF,
rejecting a trailing partial frame. -/
def parseWithdrawalRequests (data : List Nat) :
    Except BlockValidationError (List WithdrawalRequestM) :=
  match data with
  | [] => .ok []
  | b :: rest =>
    if h : (b :: rest).length < WITHDRAWAL_REQUEST_SIZE then
      .error (.WithdrawalRequestsContractCall "invalid withdrawal request length")
    else
      match parseWithdrawalRequests ((b :: rest).drop WITHDRAWAL_REQUEST_SIZE) with
      | .ok reqs => .ok (decodeFrame ((b :: rest).take WITHDRAWAL_REQUEST_SIZE) :: reqs)
      | .error e => .error e
termination_by data.length
decreasing_by
  simp only [List.length_drop, WITHDRAWAL_REQUEST_SIZE] at *
  simp only [not_lt] at h
  omega

/-- `apply_withdrawal_requests_contract_call` (EIP-7002): the pair of the
call's result and the database after the call. -/
def apply_withdrawal_requests_contract_call
    (transact : Except String (ExecResult × StateDiff))
    (coinbase : Nat) (db : StateDiff) :
    Except BlockValidationError (List WithdrawalRequestM) × StateDiff :=
  match transact with
  | .error e =>
    (.error (.WithdrawalRequestsContractCall ("execution failed: " ++ e)), db)
  | .ok (result, state) =>
    let db' := commitDiff db (removeAddr coinbase (removeAddr SYSTEM_ADDRESS state))
    match result with
    | .Success output => (parseWithdrawalRequests output, db')
    | .Revert output =>
      (.error (.WithdrawalRequestsContractCall
        ("execution reverted: " ++ hexOfBytes output)), db')
    | .Halt reason =>
      (.error (.WithdrawalRequestsContractCall
        ("execution halted: " ++ reason)), db')

/-! ## Pending-block build loop (`pending_block.rs`, `build_block`)

The EVM is an oracle `execTx : PoolTx → TxExecOutcome` standing for
`evm.transact()` on the recovered transaction; roots, withdrawals and the
blockhashes update are collaborator calls outside the selection loop and are
not needed by the claims settled here. -/

/-- `MAX_DATA_GAS_PER_BLOCK` (EIP-4844). -/
def MAX_DATA_GAS_PER_BLOCK : Nat := 786432

/-- Outcome of `evm.transact()` inside the selection loop: a
`ResultAndState` (gas used, success flag, logs, state diff), an
`EVMError::Transaction` (with the `NonceTooLow` discriminant), or a fatal
non-transaction error. -/
inductive TxExecOutcome where
  | success (gasUsed : Nat) (isSuccess : Bool) (logs : List Nat) (state : StateDiff)
  | invalidTx (nonceTooLow : Bool)
  | fatal (message : String)

/-- `Receipt` as assembled by `assemble_receipt`. -/
structure ReceiptM where
  success : Bool
  cumulativeGasUsed : Nat
  logs : List Nat
deriving DecidableEq, Repr

/-- Mutable state of the selection loop. -/
structure BuildAcc where
  db : StateDiff
  cumulativeGasUsed : Nat
  sumBlobGasUsed : Nat
  receipts : List ReceiptM
  executedTxs : List PoolTx
deriving DecidableEq, Repr

/-- The `while let Some(pool_tx) = best_txs.next()` selection loop, with
explicit fuel for the number of iterations.  It checks block gas capacity,
the private-origin flag and blob-gas capacity (marking failures invalid),
executes, skips `NonceTooLow`, marks other transaction errors invalid,
aborts the build on fatal errors, and otherwise commits and accumulates. -/
def buildLoop (execTx : PoolTx → TxExecOutcome) (blockGasLimit : Nat) :
    Nat → FeesState → BuildAcc → Except String BuildAcc
  | 0, _, acc => .ok acc
  | fuel + 1, bt, acc =>
    match feesNext bt with
    | (none, _) => .ok acc
    | (some poolTx, bt') =>
      if blockGasLimit < acc.cumulativeGasUsed + poolTx.gasLimit then
        buildLoop execTx blockGasLimit fuel (feesMarkInvalid bt' poolTx) acc
      else if poolTx.isPrivate then
        buildLoop execTx blockGasLimit fuel (feesMarkInvalid bt' poolTx) acc
      else if poolTx.isBlob &&
          decide (MAX_DATA_GAS_PER_BLOCK < acc.sumBlobGasUsed + poolTx.blobGas) then
        buildLoop execTx blockGasLimit fuel (feesMarkInvalid bt' poolTx) acc
      else
        match execTx poolTx with
        | .invalidTx nonceTooLow =>
          if nonceTooLow then buildLoop execTx blockGasLimit fuel bt' acc
          else buildLoop execTx blockGasLimit fuel (feesMarkInvalid bt' poolTx) acc
        | .fatal message => .error message
        | .success gasUsed isSuccess logs state =>
          let db' := commitDiff acc.db state
          let sumBlob' :=
            if poolTx.isBlob then acc.sumBlobGasUsed + poolTx.blobGas
            else acc.sumBlobGasUsed
          let bt'' :=
            if poolTx.isBlob && decide (sumBlob' = MAX_DATA_GAS_PER_BLOCK) then
              feesSkipBlobs bt'
            else bt'
          let cumulative' := acc.cumulativeGasUsed + gasUsed
          let acc' : BuildAcc :=
            { db := db'
              cumulativeGasUsed := cumulative'
              sumBlobGasUsed := sumBlob'
              receipts := acc.receipts ++
                [{ success := isSuccess, cumulativeGasUsed := cumulative', logs := logs }]
              executedTxs := acc.executedTxs ++ [poolTx] }
          buildLoop execTx blockGasLimit fuel bt'' acc'

/-- The header fields `build_block` assembles from the loop's counters and
the block environment (roots and withdrawals fields are produced by
collaborators and omitted). -/
structure HeaderM where
  parentHash : Nat
  beneficiary : Nat
  timestamp : Nat
  baseFeePerGas : Option Nat
  number : Nat
  gasLimit : Nat
  difficulty : Nat
  gasUsed : Nat
  blobGasUsed : Option Nat
  excessBlobGas : Option Nat
deriving DecidableEq, Repr

/-- Fuel for the selection loop: one iteration per transaction the iterator
can ever hand out. -/
def buildFuel (bt : FeesState) : Nat :=
  bestFuel bt.best + bt.best.all.length + 1

/-- `LoadPendingBlock::build_block`, restricted to the selection loop and
header assembly: runs the loop from zeroed counters and assembles the header
(`gas_used = cumulative_gas_used`, `gas_limit = block_gas_limit`,
`blob_gas_used = Some(sum_blob_gas_used)` iff Cancun is active). -/
def build_block (execTx : PoolTx → TxExecOutcome)
    (blockGasLimit baseFee blockNumber timestamp coinbase parentHash : Nat)
    (cancunActive : Bool) (excessBlobGas : Option Nat)
    (bt0 : FeesState) (db0 : StateDiff) :
    Except String (HeaderM × BuildAcc) :=
  match buildLoop execTx blockGasLimit (buildFuel bt0) bt0
      { db := db0, cumulativeGasUsed := 0, sumBlobGasUsed := 0,
        receipts := [], executedTxs := [] } with
  | .error e => .error e
  | .ok acc =>
    .ok ({ parentHash := parentHash
           beneficiary := coinbase
           timestamp := timestamp
           baseFeePerGas := some baseFee
           number := blockNumber
           gasLimit := blockGasLimit
           difficulty := 0
           gasUsed := acc.cumulativeGasUsed
           blobGasUsed := if cancunActive then some acc.sumBlobGasUsed else none
           excessBlobGas := excessBlobGas }, acc)

/-! ## Predicates used by the statements -/

/-- The messages currently queued on the late-arrival channel. -/
def queueList (st : BestState) : List PoolTx :=
  match st.newTxReceiver with
  | none => []
  | some q => q

/-- `t` cannot surface as an un-invalidated transaction of `tx`'s sender at
`tx`'s nonce or above: if it is such a transaction, its hash is in `inv`. -/
abbrev blockedBy (tx t : PoolTx) (inv : List Nat) : Prop :=
  t.sender = tx.sender → tx.nonce ≤ t.nonce → t.hash ∈ inv

/-- Iterator-state invariant for claim C2: every pool entry at exactly
`tx`'s id is invalidated, and every independent-set member and queued
arrival of `tx`'s sender at `tx`'s nonce or above is invalidated. -/
abbrev descBlocked (tx : PoolTx) (st : BestState) : Prop :=
  (∀ t ∈ st.all, t.sender = tx.sender → t.nonce = tx.nonce → t.hash ∈ st.invalid) ∧
    (∀ t ∈ st.independent, blockedBy tx t st.invalid) ∧
    (∀ t ∈ queueList st, blockedBy tx t st.invalid)

/-- Nonces of the yielded transactions of sender `S`, in yield order. -/
def sProj (S : Nat) (ys : List PoolTx) : List Nat :=
  (ys.filter (fun t => t.sender == S)).map PoolTx.nonce

/-- Number of transactions of sender `S` in a list. -/
def senderCount (S : Nat) (l : List PoolTx) : Nat :=
  (l.filter (fun t => t.sender == S)).length

/-- Per-sender invariant for claim C7: the pool snapshot is frozen
(`all = A`, no live channel, no blob skipping), and every independent-set
entry of sender `S` is the pool entry at `(S, m)` — of which there is at
most one. -/
abbrev C7Inv (S : Nat) (A : List PoolTx) (m : Nat) (st : BestState) : Prop :=
  st.all = A ∧ st.newTxReceiver = none ∧ st.skipBlobs = false ∧
    (∀ t ∈ st.independent, t.sender = S → allLookup A S m = some t) ∧
    senderCount S st.independent ≤ 1

/-! ## Concrete states used by witnesses and counterexamples -/

/-- A plain EIP-1559 pool transaction of sender 1. -/
def exTx (n h : Nat) : PoolTx :=
  { sender := 1, nonce := n, hash := h, isBlob := false, maxFeePerGas := 100,
    maxFeePerBlobGas := none, gasLimit := 21000, blobGas := 0, priority := 5,
    isPrivate := false }

/-- Gapless three-transaction snapshot of sender 1 (nonces 0, 1, 2), with
the lowest nonce independent. -/
def exState : BestState :=
  { all := [exTx 0 10, exTx 1 11, exTx 2 12], independent := [exTx 0 10],
    invalid := [], newTxReceiver := none, skipBlobs := false }

/-- A transaction violating the base fee, and a fee wrapper over a snapshot
holding it together with a satisfying transaction of another sender. -/
def exTxLowFee : PoolTx :=
  { sender := 2, nonce := 0, hash := 20, isBlob := false, maxFeePerGas := 3,
    maxFeePerBlobGas := none, gasLimit := 21000, blobGas := 0, priority := 9,
    isPrivate := false }

def exFees : FeesState :=
  { best := { all := [exTxLowFee, exTx 0 10], independent := [exTxLowFee, exTx 0 10],
              invalid := [], newTxReceiver := none, skipBlobs := false },
    baseFee := 50, baseFeePerBlobGas := 7 }

/-- The empty historical provider used by overlay witnesses. -/
def exHist : HistProvider :=
  { blockHash := fun _ => .error "io", basicAccount := fun _ => .error "io",
    storageSlot := fun _ _ => .error "io", bytecodeByHash := fun _ => .error "io" }

/-- An execution oracle whose transactions always succeed using no gas. -/
def exExec : PoolTx → TxExecOutcome :=
  fun _ => .success 0 true [] []

/-- A concrete completed build over the `exFees` snapshot. -/
def exBuild : Except String (HeaderM × BuildAcc) :=
  build_block exExec 100000 50 1 1000 9 3 true none exFees []

def exHeaderFallback : HeaderM :=
  { parentHash := 0, beneficiary := 0, timestamp := 0, baseFeePerGas := none,
    number := 0, gasLimit := 0, difficulty := 0, gasUsed := 0, blobGasUsed := none,
    excessBlobGas := none }

def exAccFallback : BuildAcc :=
  { db := [], cumulativeGasUsed := 0, sumBlobGasUsed := 0, receipts := [],
    executedTxs := [] }

/-- The header assembled by the concrete build. -/
def exHeader : HeaderM :=
  match exBuild with
  | .ok p => p.1
  | .error _ => exHeaderFallback

/-- The loop state of the concrete build. -/
def exAcc : BuildAcc :=
  match exBuild with
  | .ok p => p.2
  | .error _ => exAccFallback

/-! ## Helper lemmas -/

theorem popMax_eq_none : ∀ {l : List PoolTx}, popMax l = none → l = [] := by
  intro l h
  cases l with
  | nil => rfl
  | cons a as =>
    exfalso
    simp only [popMax] at h
    rcases hm : popMax as with _ | ⟨m, rest⟩ <;> rw [hm] at h
    · exact Option.noConfusion h
    · dsimp only at h
      split at h <;> exact Option.noConfusion h

theorem popMax_perm :
    ∀ {l : List PoolTx} {t : PoolTx} {rest : List PoolTx},
      popMax l = some (t, rest) → l.Perm (t :: rest) := by
  intro l
  induction l with
  | nil => intro t rest h; simp [popMax] at h
  | cons a as ih =>
    intro t rest h
    simp only [popMax] at h
    rcases hm : popMax as with _ | ⟨m, r⟩ <;> rw [hm] at h
    · have has : as = [] := popMax_eq_none hm
      cases h
      subst has
      exact List.Perm.refl _
    · dsimp only at h
      split at h
      · cases h
        exact List.Perm.cons a (ih hm)
      · cases h
        exact (List.Perm.cons a (ih hm)).trans (List.Perm.swap t a r)

theorem allLookup_eq_some {all : List PoolTx} {s n : Nat} {t : PoolTx}
    (h : allLookup all s n = some t) : t ∈ all ∧ t.sender = s ∧ t.nonce = n := by
  have hmem := List.mem_of_find?_eq_some h
  have hp := List.find?_some h
  simp only [Bool.and_eq_true, beq_iff_eq] at hp
  exact ⟨hmem, hp.1, hp.2⟩

theorem hashInsert_subset (h : Nat) (inv : List Nat) : inv ⊆ hashInsert h inv := by
  unfold hashInsert
  split
  · exact fun x hx => hx
  · exact fun x hx => List.mem_cons_of_mem _ hx

theorem mem_hashInsert_self (h : Nat) (inv : List Nat) : h ∈ hashInsert h inv := by
  unfold hashInsert
  split
  · assumption
  · exact List.mem_cons_self _ _

theorem addArrival_invalid (st : BestState) (t : PoolTx) :
    (addArrival st t).invalid = st.invalid := by
  unfold addArrival
  split <;> rfl

theorem addArrival_receiver (st : BestState) (t : PoolTx) :
    (addArrival st t).newTxReceiver = st.newTxReceiver := by
  unfold addArrival
  split <;> rfl

theorem addArrival_skipBlobs (st : BestState) (t : PoolTx) :
    (addArrival st t).skipBlobs = st.skipBlobs := by
  unfold addArrival
  split <;> rfl

theorem foldl_addArrival_invalid :
    ∀ (q : List PoolTx) (st : BestState), (q.foldl addArrival st).invalid = st.invalid := by
  intro q
  induction q with
  | nil => intro st; rfl
  | cons a as ih => intro st; rw [List.foldl_cons, ih, addArrival_invalid]

theorem foldl_addArrival_receiver :
    ∀ (q : List PoolTx) (st : BestState),
      (q.foldl addArrival st).newTxReceiver = st.newTxReceiver := by
  intro q
  induction q with
  | nil => intro st; rfl
  | cons a as ih => intro st; rw [List.foldl_cons, ih, addArrival_receiver]

theorem foldl_addArrival_skipBlobs :
    ∀ (q : List PoolTx) (st : BestState),
      (q.foldl addArrival st).skipBlobs = st.skipBlobs := by
  intro q
  induction q with
  | nil => intro st; rfl
  | cons a as ih => intro st; rw [List.foldl_cons, ih, addArrival_skipBlobs]

theorem addNewTransactions_invalid (st : BestState) :
    (addNewTransactions st).invalid = st.invalid := by
  unfold addNewTransactions
  cases st.newTxReceiver <;> simp [foldl_addArrival_invalid]

theorem addNewTransactions_skipBlobs (st : BestState) :
    (addNewTransactions st).skipBlobs = st.skipBlobs := by
  unfold addNewTransactions
  cases st.newTxReceiver <;> simp [foldl_addArrival_skipBlobs]

theorem addNewTransactions_none (st : BestState) (h : st.newTxReceiver = none) :
    addNewTransactions st = st := by
  unfold addNewTransactions
  rw [h]

theorem popped_fields (st1 : BestState) (rest : List PoolTx) :
    (popped st1 rest).all = st1.all ∧ (popped st1 rest).independent = rest ∧
      (popped st1 rest).invalid = st1.invalid ∧
      (popped st1 rest).newTxReceiver = st1.newTxReceiver ∧
      (popped st1 rest).skipBlobs = st1.skipBlobs :=
  ⟨rfl, rfl, rfl, rfl, rfl⟩

theorem unlockSucc_cases (st2 : BestState) (best : PoolTx) :
    (allLookup st2.all best.sender (best.nonce + 1) = none ∧ unlockSucc st2 best = st2) ∨
      ∃ u, allLookup st2.all best.sender (best.nonce + 1) = some u ∧
        unlockSucc st2 best = { st2 with independent := indInsert st2.independent u } := by
  unfold unlockSucc
  rcases hl : allLookup st2.all best.sender (best.nonce + 1) with _ | u
  · exact Or.inl ⟨rfl, rfl⟩
  · exact Or.inr ⟨u, rfl, rfl⟩

theorem unlockSucc_fields (st2 : BestState) (best : PoolTx) :
    (unlockSucc st2 best).all = st2.all ∧
      (unlockSucc st2 best).invalid = st2.invalid ∧
      (unlockSucc st2 best).newTxReceiver = st2.newTxReceiver ∧
      (unlockSucc st2 best).skipBlobs = st2.skipBlobs := by
  rcases unlockSucc_cases st2 best with ⟨_, h⟩ | ⟨u, _, h⟩ <;> rw [h] <;>
    exact ⟨rfl, rfl, rfl, rfl⟩

theorem unlockSucc_mem {st2 : BestState} {best t : PoolTx}
    (h : t ∈ (unlockSucc st2 best).independent) :
    t ∈ st2.independent ∨
      allLookup st2.all best.sender (best.nonce + 1) = some t := by
  rcases unlockSucc_cases st2 best with ⟨_, he⟩ | ⟨u, hl, he⟩
  · rw [he] at h; exact Or.inl h
  · rw [he] at h
    dsimp only at h
    unfold indInsert at h
    split at h
    · exact Or.inl h
    · rcases List.mem_cons.mp h with h | h
      · subst h; exact Or.inr hl
      · exact Or.inl h

/-- Exhaustive description of one iteration of `next`'s loop. -/
theorem nextStep_shape (st0 : BestState) :
    (popMax (addNewTransactions st0).independent = none ∧
        nextStep st0 = .exhausted (addNewTransactions st0)) ∨
      ∃ best rest, popMax (addNewTransactions st0).independent = some (best, rest) ∧
        ((best.hash ∈ st0.invalid ∧
            nextStep st0 = .again (popped (addNewTransactions st0) rest)) ∨
          (best.hash ∉ st0.invalid ∧
            ((st0.skipBlobs = true ∧ best.isBlob = true ∧
                nextStep st0 =
                  .again (markInvalid
                    (unlockSucc (popped (addNewTransactions st0) rest) best) best)) ∨
              ((st0.skipBlobs && best.isBlob) = false ∧
                nextStep st0 =
                  .yield best (unlockSucc (popped (addNewTransactions st0) rest) best))))) := by
  have hinv : (addNewTransactions st0).invalid = st0.invalid :=
    addNewTransactions_invalid st0
  have hskip : (addNewTransactions st0).skipBlobs = st0.skipBlobs :=
    addNewTransactions_skipBlobs st0
  rcases hpm : popMax (addNewTransactions st0).independent with _ | ⟨best, rest⟩
  · refine Or.inl ⟨rfl, ?_⟩
    unfold nextStep
    dsimp only
    rw [hpm]
  · refine Or.inr ⟨best, rest, rfl, ?_⟩
    have hns : nextStep st0 =
        (if best.hash ∈ (popped (addNewTransactions st0) rest).invalid then
          NextStep.again (popped (addNewTransactions st0) rest)
        else if (unlockSucc (popped (addNewTransactions st0) rest) best).skipBlobs &&
            best.isBlob then
          NextStep.again
            (markInvalid (unlockSucc (popped (addNewTransactions st0) rest) best) best)
        else
          NextStep.yield best (unlockSucc (popped (addNewTransactions st0) rest) best)) := by
      unfold nextStep
      dsimp only
      rw [hpm]
    have hpinv : (popped (addNewTransactions st0) rest).invalid = st0.invalid := by
      rw [(popped_fields _ _).2.2.1, hinv]
    have hsk : (unlockSucc (popped (addNewTransactions st0) rest) best).skipBlobs =
        st0.skipBlobs := by
      rw [(unlockSucc_fields _ _).2.2.2, (popped_fields _ _).2.2.2.2, hskip]
    by_cases hmem : best.hash ∈ st0.invalid
    · rw [if_pos (by rw [hpinv]; exact hmem)] at hns
      exact Or.inl ⟨hmem, hns⟩
    · rw [if_neg (by rw [hpinv]; exact hmem)] at hns
      refine Or.inr ⟨hmem, ?_⟩
      by_cases hb : (st0.skipBlobs && best.isBlob) = true
      · rw [if_pos (by rw [hsk]; exact hb)] at hns
        rcases (Bool.and_eq_true _ _).mp hb with ⟨hb1, hb2⟩
        exact Or.inl ⟨hb1, hb2, hns⟩
      · have hb' : (st0.skipBlobs && best.isBlob) = false := by
          cases hx : (st0.skipBlobs && best.isBlob) with
          | false => rfl
          | true => exact absurd hx hb
        rw [if_neg (by rw [hsk]; exact hb)] at hns
        exact Or.inr ⟨hb', hns⟩

theorem nextStep_invalid_mono (st : BestState) :
    st.invalid ⊆ (nextStep st).state.invalid := by
  have hinv : (addNewTransactions st).invalid = st.invalid := addNewTransactions_invalid st
  rcases nextStep_shape st with ⟨_, he⟩ |
    ⟨best, rest, _, ⟨_, he⟩ | ⟨_, ⟨_, _, he⟩ | ⟨_, he⟩⟩⟩ <;>
      rw [he] <;> simp only [NextStep.state, markInvalid]
  · rw [hinv]; exact fun x hx => hx
  · rw [(popped_fields _ _).2.2.1, hinv]; exact fun x hx => hx
  · rw [(unlockSucc_fields _ _).2.1, (popped_fields _ _).2.2.1, hinv]
    exact fun x hx => hashInsert_subset _ _ hx
  · rw [(unlockSucc_fields _ _).2.1, (popped_fields _ _).2.2.1, hinv]
    exact fun x hx => hx

theorem nextAux_invalid_mono :
    ∀ (fuel : Nat) (st : BestState), st.invalid ⊆ (nextAux fuel st).2.invalid := by
  intro fuel
  induction fuel with
  | zero => intro st; exact fun x hx => hx
  | succ fuel ih =>
    intro st
    have hstep := nextStep_invalid_mono st
    rw [nextAux]
    cases hns : nextStep st with
    | exhausted st' => rw [hns, NextStep.state] at hstep; exact hstep
    | yield t st' => rw [hns, NextStep.state] at hstep; exact hstep
    | again st' =>
      rw [hns, NextStep.state] at hstep
      exact fun x hx => ih st' (hstep hx)

/-! ## Claim C2: invariant preservation for `mark_invalid` -/

theorem blockedBy_mono {tx t : PoolTx} {inv inv' : List Nat}
    (hsub : inv ⊆ inv') (h : blockedBy tx t inv) : blockedBy tx t inv' :=
  fun h1 h2 => hsub (h h1 h2)

theorem indInsert_mem {ind : List PoolTx} {t u : PoolTx}
    (h : u ∈ indInsert ind t) : u = t ∨ u ∈ ind := by
  unfold indInsert at h
  split at h
  · exact Or.inr h
  · rcases List.mem_cons.mp h with h | h
    · exact Or.inl h
    · exact Or.inr h

theorem allInsert_mem {all : List PoolTx} {t u : PoolTx}
    (h : u ∈ allInsert all t) : u = t ∨ u ∈ all := by
  unfold allInsert at h
  rcases List.mem_cons.mp h with h | h
  · exact Or.inl h
  · exact Or.inr (List.mem_filter.mp h).1

theorem addArrival_blocked {tx : PoolTx} {st : BestState} {t : PoolTx}
    (hall : ∀ u ∈ st.all, u.sender = tx.sender → u.nonce = tx.nonce → u.hash ∈ st.invalid)
    (hind : ∀ u ∈ st.independent, blockedBy tx u st.invalid)
    (ht : blockedBy tx t st.invalid) :
    (∀ u ∈ (addArrival st t).all,
        u.sender = tx.sender → u.nonce = tx.nonce → u.hash ∈ st.invalid) ∧
      ∀ u ∈ (addArrival st t).independent, blockedBy tx u st.invalid := by
  have hresall : ∀ u ∈ (addArrival st t).all, u = t ∨ u ∈ st.all := by
    intro u hu
    unfold addArrival at hu
    split at hu <;> exact allInsert_mem hu
  have hresind : ∀ u ∈ (addArrival st t).independent, u = t ∨ u ∈ st.independent := by
    intro u hu
    unfold addArrival at hu
    split at hu
    · exact indInsert_mem hu
    · exact Or.inr hu
  constructor
  · intro u hu he1 he2
    rcases hresall u hu with h | h
    · subst h; exact ht he1 (le_of_eq he2.symm)
    · exact hall u h he1 he2
  · intro u hu
    rcases hresind u hu with h | h
    · subst h; exact ht
    · exact hind u h

theorem foldl_addArrival_blocked (tx : PoolTx) :
    ∀ (q : List PoolTx) (st : BestState),
      (∀ u ∈ st.all, u.sender = tx.sender → u.nonce = tx.nonce → u.hash ∈ st.invalid) →
      (∀ u ∈ st.independent, blockedBy tx u st.invalid) →
      (∀ u ∈ q, blockedBy tx u st.invalid) →
      (∀ u ∈ (q.foldl addArrival st).all,
          u.sender = tx.sender → u.nonce = tx.nonce → u.hash ∈ st.invalid) ∧
        ∀ u ∈ (q.foldl addArrival st).independent, blockedBy tx u st.invalid := by
  intro q
  induction q with
  | nil => intro st hall hind _; exact ⟨hall, hind⟩
  | cons a as ih =>
    intro st hall hind hq
    rw [List.foldl_cons]
    have hstep := addArrival_blocked hall hind (hq a (List.mem_cons_self _ _))
    have hinv : (addArrival st a).invalid = st.invalid := addArrival_invalid st a
    have := ih (addArrival st a) (by rw [hinv]; exact hstep.1) (by rw [hinv]; exact hstep.2)
      (by rw [hinv]; intro u hu; exact hq u (List.mem_cons_of_mem _ hu))
    rw [hinv] at this
    exact this

theorem addNewTransactions_descBlocked {tx : PoolTx} {st : BestState}
    (h : descBlocked tx st) : descBlocked tx (addNewTransactions st) := by
  obtain ⟨hall, hind, hqueue⟩ := h
  unfold addNewTransactions
  cases hr : st.newTxReceiver with
  | none => exact ⟨hall, hind, hqueue⟩
  | some q =>
    have hq : ∀ u ∈ q, blockedBy tx u st.invalid := by
      intro u hu
      exact hqueue u (by unfold queueList; rw [hr]; exact hu)
    have hres := foldl_addArrival_blocked tx q { st with newTxReceiver := some [] }
      hall hind hq
    have hinv : (q.foldl addArrival { st with newTxReceiver := some [] }).invalid =
        st.invalid := foldl_addArrival_invalid q _
    have hrecv : (q.foldl addArrival { st with newTxReceiver := some [] }).newTxReceiver =
        some [] := foldl_addArrival_receiver q _
    refine ⟨by rw [hinv]; exact hres.1, by rw [hinv]; exact hres.2, ?_⟩
    intro u hu
    unfold queueList at hu
    rw [hrecv] at hu
    exact absurd hu (List.not_mem_nil u)

theorem nextStep_descBlocked {tx : PoolTx} {st : BestState} (h : descBlocked tx st) :
    descBlocked tx (nextStep st).state ∧
      ∀ t st', nextStep st = .yield t st' →
        ¬(t.sender = tx.sender ∧ tx.nonce ≤ t.nonce) := by
  have h1 : descBlocked tx (addNewTransactions st) := addNewTransactions_descBlocked h
  obtain ⟨hall1, hind1, hqueue1⟩ := h1
  have hinv1 : (addNewTransactions st).invalid = st.invalid := addNewTransactions_invalid st
  rcases nextStep_shape st with ⟨hpm, he⟩ |
    ⟨best, rest, hpm, ⟨hmem, he⟩ | ⟨hmem, hrest⟩⟩
  · rw [he, NextStep.state]
    exact ⟨⟨hall1, hind1, hqueue1⟩, fun t st' hy => by cases hy⟩
  · -- invalid-skip iteration: state is `popped`, nothing is yielded
    have hperm := popMax_perm hpm
    have hsub : rest ⊆ (addNewTransactions st).independent :=
      fun x hx => hperm.symm.subset (List.mem_cons_of_mem _ hx)
    rw [he, NextStep.state]
    exact ⟨⟨hall1, fun u hu => hind1 u (hsub hu), fun u hu => hqueue1 u hu⟩,
      fun t st' hy => by cases hy⟩
  · -- the popped transaction is not invalid
    have hperm := popMax_perm hpm
    have hbest : best ∈ (addNewTransactions st).independent :=
      hperm.symm.subset (List.mem_cons_self _ _)
    have hsub : rest ⊆ (addNewTransactions st).independent :=
      fun x hx => hperm.symm.subset (List.mem_cons_of_mem _ hx)
    have hbb : blockedBy tx best st.invalid := by
      have := hind1 best hbest
      rw [hinv1] at this
      exact this
    have hconc : ¬(best.sender = tx.sender ∧ tx.nonce ≤ best.nonce) :=
      fun hc => hmem (hbb hc.1 hc.2)
    -- invariant for the post-unlock state st3
    have hst3 : descBlocked tx (unlockSucc (popped (addNewTransactions st) rest) best) := by
      rcases unlockSucc_cases (popped (addNewTransactions st) rest) best with
        ⟨hl, heq⟩ | ⟨u0, hl, heq⟩
      · rw [heq]
        exact ⟨hall1, fun u hu => hind1 u (hsub hu), fun u hu => hqueue1 u hu⟩
      · rw [heq]
        refine ⟨hall1, ?_, fun u hu => hqueue1 u hu⟩
        intro u hu
        rcases indInsert_mem hu with hueq | hu'
        · subst hueq
          obtain ⟨humem, husender, hunonce⟩ := allLookup_eq_some hl
          intro he1 he2
          have hbs : best.sender = tx.sender := by rw [← husender]; exact he1
          have hlt : best.nonce < tx.nonce := by
            by_contra hge
            exact hconc ⟨hbs, Nat.le_of_not_lt hge⟩
          have hueq2 : u.nonce = tx.nonce := by omega
          exact hall1 u humem he1 hueq2
        · exact hind1 u (hsub hu')
    rcases hrest with ⟨_, _, he⟩ | ⟨_, he⟩
    · -- blob skip: mark invalid and continue
      rw [he, NextStep.state]
      obtain ⟨h3all, h3ind, h3queue⟩ := hst3
      have hsub' : (unlockSucc (popped (addNewTransactions st) rest) best).invalid ⊆
          (markInvalid (unlockSucc (popped (addNewTransactions st) rest) best)
            best).invalid := by
        unfold markInvalid
        exact hashInsert_subset _ _
      refine ⟨⟨?_, ?_, ?_⟩, fun t st' hy => by cases hy⟩
      · intro u hu he1 he2
        exact hsub' (h3all u hu he1 he2)
      · intro u hu
        exact blockedBy_mono hsub' (h3ind u hu)
      · intro u hu
        exact blockedBy_mono hsub' (h3queue u hu)
    · -- yield
      rw [he, NextStep.state]
      refine ⟨hst3, fun t st' hy => ?_⟩
      cases hy
      exact hconc

theorem nextAux_descBlocked (tx : PoolTx) :
    ∀ (fuel : Nat) (st : BestState), descBlocked tx st →
      descBlocked tx (nextAux fuel st).2 ∧
        ∀ y, (nextAux fuel st).1 = some y →
          ¬(y.sender = tx.sender ∧ tx.nonce ≤ y.nonce) := by
  intro fuel
  induction fuel with
  | zero => intro st h; exact ⟨h, fun y hy => by cases hy⟩
  | succ fuel ih =>
    intro st h
    have hstep := nextStep_descBlocked h
    rw [nextAux]
    cases hns : nextStep st with
    | exhausted st' =>
      rw [hns, NextStep.state] at hstep
      exact ⟨hstep.1, fun y hy => by cases hy⟩
    | yield t st' =>
      rw [hns, NextStep.state] at hstep
      refine ⟨hstep.1, fun y hy => ?_⟩
      cases hy
      exact hstep.2 t st' rfl
    | again st' =>
      rw [hns, NextStep.state] at hstep
      exact ih st' hstep.1

theorem descBlocked_markInvalid {tx u : PoolTx} {st : BestState}
    (h : descBlocked tx st) : descBlocked tx (markInvalid st u) :=
  ⟨fun v hv e1 e2 => hashInsert_subset _ _ (h.1 v hv e1 e2),
    fun v hv => blockedBy_mono (hashInsert_subset _ _) (h.2.1 v hv),
    fun v hv => blockedBy_mono (hashInsert_subset _ _) (h.2.2 v hv)⟩

theorem applyOp_descBlocked {tx : PoolTx} {st : BestState} {op : PoolOp}
    (h : descBlocked tx st)
    (harr : ∀ t, op = PoolOp.arrive t → blockedBy tx t st.invalid) :
    descBlocked tx (applyOp st op).2 ∧
      st.invalid ⊆ (applyOp st op).2.invalid ∧
      ∀ y, (applyOp st op).1 = some y →
        ¬(y.sender = tx.sender ∧ tx.nonce ≤ y.nonce) := by
  cases op with
  | next =>
    have hb := nextAux_descBlocked tx (bestFuel st) st h
    exact ⟨hb.1, nextAux_invalid_mono (bestFuel st) st, hb.2⟩
  | markInvalid u =>
    exact ⟨descBlocked_markInvalid h, hashInsert_subset _ _, fun y hy => by cases hy⟩
  | noUpdates =>
    refine ⟨⟨h.1, h.2.1, ?_⟩, fun x hx => hx, fun y hy => by cases hy⟩
    intro u hu
    exact absurd hu (List.not_mem_nil u)
  | setSkipBlobs b =>
    exact ⟨⟨h.1, h.2.1, h.2.2⟩, fun x hx => hx, fun y hy => by cases hy⟩
  | arrive t =>
    refine ⟨⟨h.1, h.2.1, ?_⟩, fun x hx => hx, fun y hy => by cases hy⟩
    intro u hu
    cases hrec : st.newTxReceiver with
    | none =>
      unfold queueList at hu
      simp only [applyOp, hrec, Option.map_none'] at hu
      exact absurd hu (List.not_mem_nil u)
    | some q =>
      unfold queueList at hu
      simp only [applyOp, hrec, Option.map_some'] at hu
      rcases List.mem_append.mp hu with hu | hu
      · exact h.2.2 u (by unfold queueList; rw [hrec]; exact hu)
      · have : u = t := List.mem_singleton.mp hu
        subst this
        exact harr u rfl

theorem runOps_cons (st : BestState) (op : PoolOp) (ops : List PoolOp) :
    runOps st (op :: ops) =
      ((applyOp st op).1.toList ++ (runOps (applyOp st op).2 ops).1,
        (runOps (applyOp st op).2 ops).2) := rfl

theorem runOps_descBlocked (tx : PoolTx) :
    ∀ (ops : List PoolOp) (st : BestState), descBlocked tx st →
      (∀ t, PoolOp.arrive t ∈ ops → blockedBy tx t st.invalid) →
      descBlocked tx (runOps st ops).2 ∧
        st.invalid ⊆ (runOps st ops).2.invalid ∧
        ∀ y ∈ (runOps st ops).1, ¬(y.sender = tx.sender ∧ tx.nonce ≤ y.nonce) := by
  intro ops
  induction ops with
  | nil =>
    intro st h _
    exact ⟨h, fun x hx => hx, fun y hy => absurd hy (List.not_mem_nil y)⟩
  | cons op ops ih =>
    intro st h harr
    have hop := applyOp_descBlocked h
      (fun t heq => harr t (by rw [← heq]; exact List.mem_cons_self _ _))
    have hrest := ih (applyOp st op).2 hop.1
      (fun t ht => blockedBy_mono hop.2.1 (harr t (List.mem_cons_of_mem _ ht)))
    rw [runOps_cons]
    refine ⟨hrest.1, fun x hx => hrest.2.1 (hop.2.1 hx), ?_⟩
    intro y hy
    rcases List.mem_append.mp hy with hy | hy
    · cases ho : (applyOp st op).1 with
      | none => rw [ho] at hy; exact absurd hy (List.not_mem_nil y)
      | some a =>
        rw [ho] at hy
        have : y = a := List.mem_singleton.mp hy
        subst this
        exact hop.2.2 y ho
    · exact hrest.2.2 y hy

/-! ## Claim theorems for the best-transactions iterator -/

/-- C2 (amended): after `mark_invalid(tx)`, no descendant of `tx` (same
sender, strictly higher nonce) is yielded by any subsequent `next` call of
the iterator, provided that when `mark_invalid` was called no
un-invalidated transaction of `tx`'s sender with nonce at or above `tx`'s
nonce was already sitting in the independent set or on the late-arrival
channel, the pool's `all` entry at `tx`'s own id is invalidated, and no
such transaction arrives on the channel afterwards.  In particular this
covers every `tx` that has not yet been yielded over a well-formed
snapshot; it fails for an already-yielded `tx` because yielding already
unlocked `tx`'s direct descendant (see the counterexample). -/
theorem mark_invalid_no_descendant_yielded (tx : PoolTx) (st : BestState)
    (ops : List PoolOp)
    (hinv : descBlocked tx (markInvalid st tx))
    (harr : ∀ t, PoolOp.arrive t ∈ ops → blockedBy tx t (markInvalid st tx).invalid) :
    ∀ y ∈ (runOps (markInvalid st tx) ops).1,
      ¬(y.sender = tx.sender ∧ tx.nonce < y.nonce) := by
  intro y hy hcon
  exact (runOps_descBlocked tx ops (markInvalid st tx) hinv harr).2.2 y hy
    ⟨hcon.1, Nat.le_of_lt hcon.2⟩

/-- C2 counterexample (the claim over arbitrary iterator states is false):
over the gapless snapshot `exState` the first `next` yields `exTx 0 10` and
thereby unlocks its direct descendant; calling `mark_invalid` on the yielded
transaction does not prevent the following `next` from yielding the
descendant `exTx 1 11` (same sender, strictly higher nonce). -/
theorem mark_invalid_descendant_still_yielded :
    (runOps exState [PoolOp.next]).1 = [exTx 0 10] ∧
      exTx 1 11 ∈ (runOps (markInvalid (runOps exState [PoolOp.next]).2 (exTx 0 10))
        [PoolOp.next]).1 ∧
      (exTx 1 11).sender = (exTx 0 10).sender ∧
      (exTx 0 10).nonce < (exTx 1 11).nonce := by
  decide

/-- Witness for the amended C2 theorem: marking `exTx 0 10` invalid before
it was ever yielded keeps every descendant from being yielded. -/
theorem mark_invalid_no_descendant_yielded_witness :
    descBlocked (exTx 0 10) (markInvalid exState (exTx 0 10)) ∧
      exTx 1 11 ∉ (runOps (markInvalid exState (exTx 0 10))
        [PoolOp.next, PoolOp.next]).1 :=
  ⟨by decide, fun hmem =>
    mark_invalid_no_descendant_yielded (exTx 0 10) exState
      [PoolOp.next, PoolOp.next] (by decide)
      (fun t ht => absurd ht (by simp))
      (exTx 1 11) hmem ⟨by decide, by decide⟩⟩

theorem hashInsert_idem (h : Nat) (inv : List Nat) :
    hashInsert h (hashInsert h inv) = hashInsert h inv := by
  have hm : h ∈ hashInsert h inv := mem_hashInsert_self h inv
  rw [hashInsert, if_pos hm]

/-- C10: `mark_invalid` only inserts the transaction's hash into the
invalid set — the `all` map, the `independent` set, the `skip_blobs` flag
and the late-arrival receiver are unchanged — and calling it twice with the
same transaction leaves the same state as calling it once. -/
theorem mark_invalid_frame (st : BestState) (t : PoolTx) :
    (markInvalid st t).all = st.all ∧
      (markInvalid st t).independent = st.independent ∧
      (markInvalid st t).skipBlobs = st.skipBlobs ∧
      (markInvalid st t).newTxReceiver = st.newTxReceiver ∧
      (markInvalid st t).invalid = hashInsert t.hash st.invalid ∧
      t.hash ∈ (markInvalid st t).invalid ∧
      markInvalid (markInvalid st t) t = markInvalid st t := by
  refine ⟨rfl, rfl, rfl, rfl, rfl, mem_hashInsert_self _ _, ?_⟩
  show ({ st with invalid := hashInsert t.hash (hashInsert t.hash st.invalid) } : BestState) =
    { st with invalid := hashInsert t.hash st.invalid }
  rw [hashInsert_idem]

/-! ## Claim C6: the fee-enforcing wrapper -/

theorem feesNextAux_invalid_mono :
    ∀ (fuel : Nat) (fs : FeesState),
      fs.best.invalid ⊆ (feesNextAux fuel fs).2.1.best.invalid := by
  intro fuel
  induction fuel with
  | zero => intro fs; exact fun x hx => hx
  | succ fuel ih =>
    intro fs
    have hmono : fs.best.invalid ⊆ (bestNext fs.best).2.invalid :=
      nextAux_invalid_mono (bestFuel fs.best) fs.best
    rw [feesNextAux]
    rcases hbn : bestNext fs.best with ⟨o, b'⟩
    rw [hbn] at hmono
    dsimp only at hmono
    cases o with
    | none => dsimp only; exact hmono
    | some t0 =>
      dsimp only
      split
      · exact hmono
      · dsimp only
        intro x hx
        exact ih _ (hashInsert_subset _ _ (hmono hx))

/-- C6: every transaction yielded by `BestTransactionsWithFees::next`
satisfies `max_fee_per_gas ≥ base_fee` and, when it carries a blob fee,
`max_fee_per_blob_gas ≥ base_fee_per_blob_gas`; every transaction pulled
from the inner iterator that violates either bound is marked invalid on the
inner iterator and is not yielded. -/
theorem fees_next_fee_enforced :
    ∀ (fuel : Nat) (fs : FeesState),
      (∀ t, (feesNextAux fuel fs).1 = some t →
        feeOk fs.baseFee fs.baseFeePerBlobGas t = true) ∧
      ∀ t ∈ (feesNextAux fuel fs).2.2,
        feeOk fs.baseFee fs.baseFeePerBlobGas t = false →
          t.hash ∈ (feesNextAux fuel fs).2.1.best.invalid ∧
            (feesNextAux fuel fs).1 ≠ some t := by
  intro fuel
  induction fuel with
  | zero =>
    intro fs
    exact ⟨fun t ht => (nomatch ht), fun t ht => absurd ht (List.not_mem_nil t)⟩
  | succ fuel ih =>
    intro fs
    rw [feesNextAux]
    rcases hbn : bestNext fs.best with ⟨o, b'⟩
    cases o with
    | none =>
      dsimp only
      exact ⟨fun t ht => (nomatch ht), fun t ht => absurd ht (List.not_mem_nil t)⟩
    | some t0 =>
      dsimp only
      by_cases hfee : feeOk fs.baseFee fs.baseFeePerBlobGas t0 = true
      · rw [if_pos hfee]
        refine ⟨fun t ht => ?_, fun t ht hviol => ?_⟩
        · cases ht
          exact hfee
        · have : t = t0 := List.mem_singleton.mp ht
          subst this
          rw [hfee] at hviol
          cases hviol
      · rw [if_neg hfee]
        have ihfs := ih { fs with best := markInvalid b' t0 }
        dsimp only
        refine ⟨ihfs.1, fun t ht hviol => ?_⟩
        rcases List.mem_cons.mp ht with ht | ht
        · subst ht
          constructor
          · refine feesNextAux_invalid_mono fuel _ ?_
            exact mem_hashInsert_self _ _
          · intro hres
            exact hfee (ihfs.1 t hres)
        · exact ihfs.2 t ht hviol

/-- Witness for C6: the wrapper `exFees` pulls the violating `exTxLowFee`,
marks it invalid on the inner iterator, and yields the satisfying
`exTx 0 10`. -/
theorem fees_next_fee_enforced_witness :
    feeOk exFees.baseFee exFees.baseFeePerBlobGas (exTx 0 10) = true ∧
      exTxLowFee.hash ∈ (feesNextAux (feesFuel exFees) exFees).2.1.best.invalid :=
  ⟨(fees_next_fee_enforced (feesFuel exFees) exFees).1 (exTx 0 10) (by decide),
    ((fees_next_fee_enforced (feesFuel exFees) exFees).2 exTxLowFee (by decide)
      (by decide)).1⟩

/-! ## Claim C3: beacon-root call branch behaviour -/

/-- C3: `apply_beacon_root_contract_call` succeeds without state change when
Cancun is inactive at the block timestamp; when Cancun is active and the
parent beacon block root is absent it fails with
`MissingParentBeaconBlockRoot`; and at block number 0 it fails with
`CancunGenesisParentBeaconBlockRootNotZero` exactly when the supplied root
is nonzero, succeeding without state change on a zero root. -/
theorem beacon_root_call_branches (cancunActiveAt : Nat → Bool) (ts n : Nat)
    (root : Option Nat) (transact : Except String (ExecResult × StateDiff))
    (coinbase : Nat) (db : StateDiff) :
    (cancunActiveAt ts = false →
      apply_beacon_root_contract_call cancunActiveAt ts n root transact coinbase db =
        .ok db) ∧
    (cancunActiveAt ts = true → root = none →
      apply_beacon_root_contract_call cancunActiveAt ts n root transact coinbase db =
        .error .MissingParentBeaconBlockRoot) ∧
    (cancunActiveAt ts = true → n = 0 → ∀ r, root = some r →
      ((apply_beacon_root_contract_call cancunActiveAt ts n root transact coinbase db =
          .error (.CancunGenesisParentBeaconBlockRootNotZero r)) ↔ r ≠ 0) ∧
        (r = 0 →
          apply_beacon_root_contract_call cancunActiveAt ts n root transact coinbase db =
            .ok db)) := by
  refine ⟨fun hc => ?_, fun hc hr => ?_, fun hc hn r hr => ?_⟩
  · unfold apply_beacon_root_contract_call
    rw [hc]
    rfl
  · unfold apply_beacon_root_contract_call
    rw [hc, hr]
    rfl
  · subst hn
    subst hr
    by_cases hr0 : r = 0
    · subst hr0
      refine ⟨?_, fun _ => ?_⟩
      · unfold apply_beacon_root_contract_call
        rw [hc]
        simp
      · unfold apply_beacon_root_contract_call
        rw [hc]
        simp
    · refine ⟨?_, fun h => absurd h hr0⟩
      unfold apply_beacon_root_contract_call
      rw [hc]
      simp [hr0]

/-- Witness for C3: at genesis with a nonzero root the call fails with the
genesis error. -/
theorem beacon_root_call_branches_witness :
    apply_beacon_root_contract_call (fun _ => true) 0 0 (some 1) (.error "x") 7 [] =
      .error (.CancunGenesisParentBeaconBlockRootNotZero 1) :=
  ((beacon_root_call_branches (fun _ => true) 0 0 (some 1) (.error "x") 7 []).2.2
    rfl rfl 1 rfl).1.mpr (by decide)

/-! ## Claim C9: overlay state-root pathways are `todo!()` -/

/-- C9: `state_root`, `state_root_with_updates` and `proof` on the memory
overlay panic (`todo!()`) on every call — also on an overlay whose
in-memory block list is empty — never produce a value, and never delegate
to the historical provider. -/
theorem overlay_state_root_panics (inMemory : List ExecutedBlockM)
    (hist : HistProvider) (bundleState : List (Nat × Nat)) (address : Nat)
    (slots : List Nat) :
    MemoryOverlay.stateRoot ⟨inMemory, hist⟩ bundleState =
        .panicked "not yet implemented" ∧
      MemoryOverlay.stateRootWithUpdates ⟨inMemory, hist⟩ bundleState =
        .panicked "not yet implemented" ∧
      MemoryOverlay.proof ⟨inMemory, hist⟩ address slots =
        .panicked "not yet implemented" ∧
      (∀ v, MemoryOverlay.stateRoot ⟨inMemory, hist⟩ bundleState ≠ .value v) ∧
      ∀ hist', MemoryOverlay.stateRoot ⟨inMemory, hist⟩ bundleState =
        MemoryOverlay.stateRoot ⟨[], hist'⟩ bundleState :=
  ⟨rfl, rfl, rfl, fun v h => CallOutcome.noConfusion h, fun hist' => rfl⟩

/-- Witness for C9 at the empty overlay. -/
theorem overlay_state_root_panics_witness :
    MemoryOverlay.stateRoot ⟨[], exHist⟩ [] = .panicked "not yet implemented" :=
  (overlay_state_root_panics [] exHist [] 0 []).1

/-! ## Claim C5: overlay reads prefer the newest in-memory definition -/

theorem foldl_newest_acc {α : Type} (f : ExecutedBlockM → Option α) :
    ∀ (l : List ExecutedBlockM) (acc : Option α),
      l.foldl (fun acc b => match f b with | some v => some v | none => acc) acc =
        (l.foldl (fun acc b => match f b with | some v => some v | none => acc)
          none).or acc := by
  intro l
  induction l with
  | nil => intro acc; simp
  | cons b bs ih =>
    intro acc
    cases hf : f b with
    | some v =>
      simp only [List.foldl_cons, hf]
      rw [ih (some v), Option.or_assoc]
      rfl
    | none =>
      simp only [List.foldl_cons, hf]
      exact ih acc

theorem newestDef_cons {α : Type} (b : ExecutedBlockM) (bs : List ExecutedBlockM)
    (f : ExecutedBlockM → Option α) :
    newestDef (b :: bs) f =
      (newestDef bs f).or (match f b with | some v => some v | none => none) := by
  unfold newestDef
  simp only [List.foldl_cons]
  exact foldl_newest_acc f bs _

theorem revScan_eq_newestDef {α : Type} (blocks : List ExecutedBlockM)
    (f : ExecutedBlockM → Option α) :
    revScan blocks f = newestDef blocks f := by
  induction blocks with
  | nil => rfl
  | cons b bs ih =>
    unfold revScan at ih ⊢
    rw [List.reverse_cons, List.findSome?_append, ih, newestDef_cons]
    rfl

/-- C5: each overlay read (`basic_account`, `storage`, `bytecode_by_hash`,
`block_hash`) returns the definition recorded by the newest in-memory block
that defines the key, and otherwise the historical provider's answer
verbatim — a historical error is propagated unchanged. -/
theorem overlay_reads_newest_or_historical (p : MemoryOverlay)
    (address storageKey codeHash number : Nat) :
    (p.basicAccount address =
      match newestDef p.inMemory (fun b => b.account address) with
      | some v => Except.ok v
      | none => p.historical.basicAccount address) ∧
    (p.storageSlot address storageKey =
      match newestDef p.inMemory (fun b => b.storageSlot address storageKey) with
      | some v => Except.ok (some v)
      | none => p.historical.storageSlot address storageKey) ∧
    (p.bytecodeByHash codeHash =
      match newestDef p.inMemory (fun b => b.bytecode codeHash) with
      | some v => Except.ok (some v)
      | none => p.historical.bytecodeByHash codeHash) ∧
    (p.blockHashRead number =
      match newestDef p.inMemory
          (fun b => if b.number = number then some b.blockHash else none) with
      | some h => Except.ok (some h)
      | none => p.historical.blockHash number) := by
  refine ⟨?_, ?_, ?_, ?_⟩
  · unfold MemoryOverlay.basicAccount
    rw [revScan_eq_newestDef]
  · unfold MemoryOverlay.storageSlot
    rw [revScan_eq_newestDef]
  · unfold MemoryOverlay.bytecodeByHash
    rw [revScan_eq_newestDef]
  · unfold MemoryOverlay.blockHashRead
    rw [revScan_eq_newestDef]

/-! ## Claim C4: withdrawal-request output parsing -/

theorem parse_frame_cons (data : List Nat)
    (h76 : WITHDRAWAL_REQUEST_SIZE ≤ data.length) (hne : data ≠ []) :
    parseWithdrawalRequests data =
      match parseWithdrawalRequests (data.drop WITHDRAWAL_REQUEST_SIZE) with
      | .ok reqs => .ok (decodeFrame (data.take WITHDRAWAL_REQUEST_SIZE) :: reqs)
      | .error e => .error e := by
  cases data with
  | nil => exact absurd rfl hne
  | cons b rest =>
    rw [parseWithdrawalRequests]
    rw [dif_neg (not_lt.mpr h76)]

/-- C4: for a successful withdrawal-contract output of byte length `L` the
parser returns exactly `L / 76` records — each frame decoded from its
76-byte slice by `decodeFrame` (20-byte source address, 48-byte validator
pubkey, big-endian u64 amount) — precisely when `76 ∣ L`; otherwise it
fails with the `invalid withdrawal request length` error.  Empty output
parses to the empty sequence. -/
theorem withdrawal_output_parsing (data : List Nat) :
    (76 ∣ data.length →
      ∃ reqs, parseWithdrawalRequests data = .ok reqs ∧
        reqs.length = data.length / 76 ∧
        ∀ i < reqs.length,
          reqs.get? i = some (decodeFrame ((data.drop (76 * i)).take 76))) ∧
    (¬ 76 ∣ data.length →
      parseWithdrawalRequests data =
        .error (.WithdrawalRequestsContractCall "invalid withdrawal request length")) ∧
    (data = [] → parseWithdrawalRequests data = .ok []) := by
  have hsz : WITHDRAWAL_REQUEST_SIZE = 76 := rfl
  suffices h : ∀ n (data : List Nat), data.length = n →
      (76 ∣ data.length →
        ∃ reqs, parseWithdrawalRequests data = .ok reqs ∧
          reqs.length = data.length / 76 ∧
          ∀ i < reqs.length,
            reqs.get? i = some (decodeFrame ((data.drop (76 * i)).take 76))) ∧
      (¬ 76 ∣ data.length →
        parseWithdrawalRequests data =
          .error (.WithdrawalRequestsContractCall "invalid withdrawal request length")) by
    refine ⟨(h data.length data rfl).1, (h data.length data rfl).2, fun he => ?_⟩
    subst he
    rw [parseWithdrawalRequests]
  intro n
  induction n using Nat.strong_induction_on with
  | _ n ih =>
    intro data hlen
    cases data with
    | nil =>
      refine ⟨fun _ => ⟨[], by rw [parseWithdrawalRequests], by simp, ?_⟩,
        fun hnd => absurd (dvd_zero 76) hnd⟩
      intro i hi
      exact absurd hi (Nat.not_lt_zero i)
    | cons b rest =>
      by_cases hlt : (b :: rest).length < WITHDRAWAL_REQUEST_SIZE
      · have herr : parseWithdrawalRequests (b :: rest) =
            .error (.WithdrawalRequestsContractCall "invalid withdrawal request length") := by
          rw [parseWithdrawalRequests, dif_pos hlt]
        refine ⟨fun hdvd => ?_, fun _ => herr⟩
        exfalso
        have hLpos : 0 < (b :: rest).length := by simp
        have hge := Nat.le_of_dvd hLpos hdvd
        rw [hsz] at hlt
        omega
      · have h76 : WITHDRAWAL_REQUEST_SIZE ≤ (b :: rest).length := Nat.le_of_not_lt hlt
        have hstep := parse_frame_cons (b :: rest) h76 (by simp)
        have hlen' : ((b :: rest).drop WITHDRAWAL_REQUEST_SIZE).length =
            (b :: rest).length - WITHDRAWAL_REQUEST_SIZE := List.length_drop _ _
        have hless : (b :: rest).length - WITHDRAWAL_REQUEST_SIZE < n := by
          rw [hsz] at h76 ⊢
          omega
        have hrec := ih ((b :: rest).length - WITHDRAWAL_REQUEST_SIZE) hless
          ((b :: rest).drop WITHDRAWAL_REQUEST_SIZE) hlen'
        rw [hlen'] at hrec
        refine ⟨fun hdvd => ?_, fun hnd => ?_⟩
        · have hdvd' : 76 ∣ (b :: rest).length - WITHDRAWAL_REQUEST_SIZE := by
            rw [hsz]
            exact Nat.dvd_sub' hdvd (dvd_refl 76)
          obtain ⟨reqs', hok, hlen2, hframes⟩ := hrec.1 hdvd'
          refine ⟨decodeFrame ((b :: rest).take WITHDRAWAL_REQUEST_SIZE) :: reqs',
            ?_, ?_, ?_⟩
          · rw [hstep, hok]
          · rw [List.length_cons, hlen2, hsz]
            rw [hsz] at h76
            rw [Nat.div_eq_sub_div (by norm_num) h76]
          · intro i hi
            cases i with
            | zero =>
              rw [hsz]
              simp [decodeFrame]
            | succ i =>
              rw [List.get?_cons_succ]
              have hi' : i < reqs'.length := by
                rw [List.length_cons] at hi
                omega
              have hidx : ((b :: rest).drop 76).drop (76 * i) =
                  (b :: rest).drop (76 * (i + 1)) := by
                rw [List.drop_drop]
                congr 1
                omega
              rw [hframes i hi', hsz, hidx]
        · have hnd' : ¬ 76 ∣ (b :: rest).length - WITHDRAWAL_REQUEST_SIZE := by
            rw [hsz]
            intro hd
            apply hnd
            have hsplit : (b :: rest).length = ((b :: rest).length - 76) + 76 := by
              rw [hsz] at h76
              omega
            rw [hsplit]
            exact Nat.dvd_add hd (dvd_refl 76)
          rw [hstep, hrec.2 hnd']

/-- Witness for C4: a single 76-byte frame of zeros parses to one record. -/
theorem withdrawal_output_parsing_witness :
    (76 ∣ (List.replicate 76 0).length) ∧
      parseWithdrawalRequests (List.replicate 76 0) =
        .ok [decodeFrame (List.replicate 76 0)] := by
  have h := (withdrawal_output_parsing (List.replicate 76 0)).1 (by simp)
  obtain ⟨reqs, hok, hlen, hframes⟩ := h
  refine ⟨by simp, ?_⟩
  rw [hok]
  have hlen1 : reqs.length = 1 := by simpa using hlen
  have h0 := hframes 0 (by omega)
  cases reqs with
  | nil => simp at hlen1
  | cons r rs =>
    cases rs with
    | nil =>
      simp only [List.get?_cons_zero, Option.some_inj] at h0
      rw [h0]
      simp
    | cons r2 rs2 => simp at hlen1

/-! ## Claim C1: withdrawal-call result handling -/

/-- C1 (amended): when `evm.transact()` itself errors, the call fails with
`WithdrawalRequestsContractCall` and the database is untouched; whenever
`transact` returns a `ResultAndState` — whether the execution result is
`Success`, `Revert` or `Halt` — the state diff, scrubbed of
`SYSTEM_ADDRESS` and the coinbase, is committed to the database before the
result is inspected; the call then fails with a
`WithdrawalRequestsContractCall` error on `Revert` and `Halt`, and parses
the output on `Success`. -/
theorem withdrawal_call_result_handling
    (transact : Except String (ExecResult × StateDiff)) (coinbase : Nat)
    (db : StateDiff) :
    (∀ e, transact = .error e →
      apply_withdrawal_requests_contract_call transact coinbase db =
        (.error (.WithdrawalRequestsContractCall ("execution failed: " ++ e)), db)) ∧
    (∀ result state, transact = .ok (result, state) →
      (apply_withdrawal_requests_contract_call transact coinbase db).2 =
          commitDiff db (removeAddr coinbase (removeAddr SYSTEM_ADDRESS state)) ∧
        (∀ output, result = .Success output →
          (apply_withdrawal_requests_contract_call transact coinbase db).1 =
            parseWithdrawalRequests output) ∧
        (((∃ output, result = .Revert output) ∨ ∃ reason, result = .Halt reason) →
          ∃ msg, (apply_withdrawal_requests_contract_call transact coinbase db).1 =
            .error (.WithdrawalRequestsContractCall msg))) := by
  constructor
  · intro e he
    subst he
    rfl
  · intro result state ht
    subst ht
    refine ⟨?_, ?_, ?_⟩
    · unfold apply_withdrawal_requests_contract_call
      cases result <;> rfl
    · intro output ho
      subst ho
      rfl
    · rintro (⟨output, ho⟩ | ⟨reason, ho⟩) <;> subst ho
      · exact ⟨"execution reverted: " ++ hexOfBytes output, rfl⟩
      · exact ⟨"execution halted: " ++ reason, rfl⟩

/-- C1 counterexample (the claim as stated is false): on a `Revert` result
the call does fail with the `WithdrawalRequestsContractCall` error, but the
execution's scrubbed state diff has nevertheless been committed to the
database — the commit happens before the execution result is inspected. -/
theorem withdrawal_revert_commits_state :
    (apply_withdrawal_requests_contract_call
        (.ok (.Revert [], [(5, 7)])) 9 []).2 = [(5, 7)] ∧
      (apply_withdrawal_requests_contract_call
          (.ok (.Revert [], [(5, 7)])) 9 []).1 =
        .error (.WithdrawalRequestsContractCall "execution reverted: 0x") ∧
      ([(5, 7)] : StateDiff) ≠ [] := by
  refine ⟨rfl, ?_, by decide⟩
  rfl

/-- Witness for the amended C1 theorem on a concrete `Success` outcome. -/
theorem withdrawal_call_result_handling_witness :
    (apply_withdrawal_requests_contract_call
        (.ok (.Success [], [(3, 4)])) 9 []).1 = parseWithdrawalRequests [] ∧
      (apply_withdrawal_requests_contract_call
          (.ok (.Success [], [(3, 4)])) 9 []).2 =
        commitDiff [] (removeAddr 9 (removeAddr SYSTEM_ADDRESS [(3, 4)])) :=
  ⟨((withdrawal_call_result_handling (.ok (.Success [], [(3, 4)])) 9 []).2
      (.Success []) [(3, 4)] rfl).2.1 [] rfl,
    ((withdrawal_call_result_handling (.ok (.Success [], [(3, 4)])) 9 []).2
      (.Success []) [(3, 4)] rfl).1⟩

/-! ## Claim C8: build gas and blob-gas budgets -/

theorem buildLoop_gas_bounds (execTx : PoolTx → TxExecOutcome) (blockGasLimit : Nat)
    (hexec : ∀ t g ok lg st, execTx t = .success g ok lg st → g ≤ t.gasLimit) :
    ∀ (fuel : Nat) (bt : FeesState) (acc : BuildAcc),
      acc.cumulativeGasUsed ≤ blockGasLimit →
      acc.sumBlobGasUsed ≤ MAX_DATA_GAS_PER_BLOCK →
      ∀ acc', buildLoop execTx blockGasLimit fuel bt acc = .ok acc' →
        acc'.cumulativeGasUsed ≤ blockGasLimit ∧
          acc'.sumBlobGasUsed ≤ MAX_DATA_GAS_PER_BLOCK := by
  intro fuel
  induction fuel with
  | zero =>
    intro bt acc h1 h2 acc' heq
    rw [buildLoop] at heq
    cases heq
    exact ⟨h1, h2⟩
  | succ fuel ih =>
    intro bt acc h1 h2 acc' heq
    rw [buildLoop] at heq
    rcases hfn : feesNext bt with ⟨o, bt'⟩
    rw [hfn] at heq
    cases o with
    | none =>
      dsimp only at heq
      cases heq
      exact ⟨h1, h2⟩
    | some poolTx =>
      dsimp only at heq
      by_cases hgas : blockGasLimit < acc.cumulativeGasUsed + poolTx.gasLimit
      · rw [if_pos hgas] at heq
        exact ih _ _ h1 h2 acc' heq
      · rw [if_neg hgas] at heq
        by_cases hpriv : poolTx.isPrivate = true
        · rw [if_pos hpriv] at heq
          exact ih _ _ h1 h2 acc' heq
        · rw [if_neg hpriv] at heq
          by_cases hblob : (poolTx.isBlob &&
              decide (MAX_DATA_GAS_PER_BLOCK < acc.sumBlobGasUsed + poolTx.blobGas)) = true
          · rw [if_pos hblob] at heq
            exact ih _ _ h1 h2 acc' heq
          · rw [if_neg hblob] at heq
            cases hex : execTx poolTx with
            | invalidTx ntl =>
              rw [hex] at heq
              dsimp only at heq
              by_cases hntl : ntl = true
              · rw [if_pos hntl] at heq
                exact ih _ _ h1 h2 acc' heq
              · rw [if_neg hntl] at heq
                exact ih _ _ h1 h2 acc' heq
            | fatal m =>
              rw [hex] at heq
              cases heq
            | success g ok lg stt =>
              rw [hex] at heq
              dsimp only at heq
              refine ih _ _ ?_ ?_ acc' heq
              · dsimp only
                have hg := hexec poolTx g ok lg stt hex
                omega
              · dsimp only
                by_cases hb : poolTx.isBlob = true
                · rw [if_pos hb]
                  have hnb : ¬ MAX_DATA_GAS_PER_BLOCK <
                      acc.sumBlobGasUsed + poolTx.blobGas := by
                    intro hlt
                    apply hblob
                    rw [hb]
                    simp [hlt]
                  omega
                · rw [if_neg hb]
                  exact h2

/-- C8: for every completed build the assembled header satisfies
`gas_used ≤ gas_limit`, and the accumulated blob gas — hence any
`blob_gas_used` header value — is at most `MAX_DATA_GAS_PER_BLOCK = 786432`,
given that the EVM never reports more gas used than the transaction's gas
limit.  The selection loop marks invalid every transaction whose gas limit
would push `cumulative_gas_used` past the block gas limit and every blob
transaction whose blob gas would push `sum_blob_gas_used` past the cap. -/
theorem build_block_gas_bounds (execTx : PoolTx → TxExecOutcome)
    (blockGasLimit baseFee blockNumber timestamp coinbase parentHash : Nat)
    (cancunActive : Bool) (excessBlobGas : Option Nat) (bt0 : FeesState)
    (db0 : StateDiff)
    (hexec : ∀ t g ok lg st, execTx t = .success g ok lg st → g ≤ t.gasLimit)
    (hdr : HeaderM) (acc : BuildAcc)
    (hok : build_block execTx blockGasLimit baseFee blockNumber timestamp coinbase
      parentHash cancunActive excessBlobGas bt0 db0 = .ok (hdr, acc)) :
    hdr.gasUsed ≤ hdr.gasLimit ∧ acc.sumBlobGasUsed ≤ 786432 ∧
      ∀ b, hdr.blobGasUsed = some b → b ≤ 786432 := by
  unfold build_block at hok
  rcases hbl : buildLoop execTx blockGasLimit (buildFuel bt0) bt0
      { db := db0, cumulativeGasUsed := 0, sumBlobGasUsed := 0,
        receipts := [], executedTxs := [] } with e | acc0
  · rw [hbl] at hok
    cases hok
  · rw [hbl] at hok
    dsimp only at hok
    cases hok
    have hb := buildLoop_gas_bounds execTx blockGasLimit hexec (buildFuel bt0) bt0 _
      (Nat.zero_le _) (Nat.zero_le _) _ hbl
    refine ⟨hb.1, hb.2, ?_⟩
    intro b hbg
    dsimp only at hbg
    split at hbg
    · cases hbg
      exact hb.2
    · cases hbg

/-- Witness for C8: the concrete completed build `exBuild`. -/
theorem build_block_gas_bounds_witness :
    exHeader.gasUsed ≤ exHeader.gasLimit ∧ exAcc.sumBlobGasUsed ≤ 786432 :=
  have hx : ∀ t g ok lg st, exExec t = .success g ok lg st → g ≤ t.gasLimit := by
    intro t g ok lg st h
    cases h
    exact Nat.zero_le _
  have hb := build_block_gas_bounds exExec 100000 50 1 1000 9 3 true none exFees []
    hx exHeader exAcc rfl
  ⟨hb.1, hb.2.1⟩

/-! ## Claim C7: per-sender projection of the yielded sequence -/

theorem senderCount_perm {S : Nat} {l l' : List PoolTx} (h : l.Perm l') :
    senderCount S l = senderCount S l' :=
  (h.filter _).length_eq

theorem senderCount_cons (S : Nat) (t : PoolTx) (l : List PoolTx) :
    senderCount S (t :: l) =
      (if t.sender == S then 1 else 0) + senderCount S l := by
  unfold senderCount
  rw [List.filter_cons]
  split
  · rw [List.length_cons]
    omega
  · omega

theorem senderCount_eq_zero {S : Nat} {l : List PoolTx} (h : senderCount S l = 0) :
    ∀ t ∈ l, t.sender ≠ S := by
  unfold senderCount at h
  rw [List.length_eq_zero] at h
  intro t ht hts
  have hmem : t ∈ l.filter (fun t => t.sender == S) :=
    List.mem_filter.mpr ⟨ht, by simp [hts]⟩
  rw [h] at hmem
  exact absurd hmem (List.not_mem_nil t)

theorem sProj_append (S : Nat) (a b : List PoolTx) :
    sProj S (a ++ b) = sProj S a ++ sProj S b := by
  unfold sProj
  rw [List.filter_append, List.map_append]

theorem sProj_single_mem {S : Nat} {t : PoolTx} (h : t.sender = S) :
    sProj S [t] = [t.nonce] := by
  unfold sProj
  simp [h]

theorem sProj_single_not {S : Nat} {t : PoolTx} (h : t.sender ≠ S) :
    sProj S [t] = [] := by
  unfold sProj
  simp [h]

theorem range'_glue {m m1 m2 : Nat} (h1 : m ≤ m1) (h2 : m1 ≤ m2) :
    List.range' m (m1 - m) ++ List.range' m1 (m2 - m1) = List.range' m (m2 - m) := by
  have h := List.range'_append m (m1 - m) (m2 - m1) 1
  simp only [one_mul] at h
  rw [Nat.add_sub_cancel' h1] at h
  rw [h]
  congr 1
  omega

theorem nextAux_C7 (S : Nat) (A : List PoolTx) :
    ∀ (fuel : Nat) (st : BestState) (m : Nat), C7Inv S A m st →
      ∃ m', m ≤ m' ∧ C7Inv S A m' (nextAux fuel st).2 ∧
        sProj S (nextAux fuel st).1.toList = List.range' m (m' - m) := by
  intro fuel
  induction fuel with
  | zero =>
    intro st m hinv
    have hres : nextAux 0 st = (none, st) := rfl
    rw [hres]
    exact ⟨m, Nat.le_refl m, hinv, by simp [sProj, Nat.sub_self]⟩
  | succ fuel ih =>
    intro st m hinv
    obtain ⟨hall, hrecv, hskipf, hindc, hcnt⟩ := hinv
    have haddeq : addNewTransactions st = st := addNewTransactions_none st hrecv
    have hshape := nextStep_shape st
    rw [haddeq] at hshape
    rcases hshape with ⟨hpm, he⟩ |
      ⟨best, rest, hpm, ⟨hmem, he⟩ | ⟨hmem, ⟨hsb, _, _⟩ | ⟨hb', he⟩⟩⟩
    · -- exhausted
      have hres : nextAux (fuel + 1) st = (none, st) := by
        rw [nextAux, he]
      rw [hres]
      exact ⟨m, Nat.le_refl m, ⟨hall, hrecv, hskipf, hindc, hcnt⟩,
        by simp [sProj, Nat.sub_self]⟩
    · -- popped transaction already invalid: skipped without unlock
      have hres : nextAux (fuel + 1) st = nextAux fuel (popped st rest) := by
        rw [nextAux, he]
      have hperm := popMax_perm hpm
      have hsub : rest ⊆ st.independent :=
        fun x hx => hperm.symm.subset (List.mem_cons_of_mem _ hx)
      have hcrest : senderCount S rest ≤ 1 := by
        have hcp : senderCount S st.independent = senderCount S (best :: rest) :=
          senderCount_perm hperm
        rw [senderCount_cons] at hcp
        omega
      have hinvp : C7Inv S A m (popped st rest) :=
        ⟨hall, hrecv, hskipf, fun t ht hts => hindc t (hsub ht) hts, hcrest⟩
      rw [hres]
      exact ih (popped st rest) m hinvp
    · -- blob-skip branch is unreachable: skip_blobs is off
      exact absurd (hskipf ▸ hsb) (by simp)
    · -- yield
      have hres : nextAux (fuel + 1) st =
          (some best, unlockSucc (popped st rest) best) := by
        rw [nextAux, he]
      have hperm := popMax_perm hpm
      have hbestmem : best ∈ st.independent :=
        hperm.symm.subset (List.mem_cons_self _ _)
      have hsub : rest ⊆ st.independent :=
        fun x hx => hperm.symm.subset (List.mem_cons_of_mem _ hx)
      have hcp : senderCount S st.independent = senderCount S (best :: rest) :=
        senderCount_perm hperm
      rw [senderCount_cons] at hcp
      rw [hres]
      by_cases hbs : best.sender = S
      · -- the popped transaction belongs to sender S: the projection grows
        have hlk : allLookup A S m = some best := hindc best hbestmem hbs
        obtain ⟨hbmem, _, hbnonce⟩ := allLookup_eq_some hlk
        have hrest0 : senderCount S rest = 0 := by
          rw [if_pos (by simp [hbs])] at hcp
          omega
        have hrestS := senderCount_eq_zero hrest0
        refine ⟨m + 1, Nat.le_succ m, ⟨?_, ?_, ?_, ?_, ?_⟩, ?_⟩
        · rw [(unlockSucc_fields _ _).1]
          exact hall
        · rw [(unlockSucc_fields _ _).2.2.1]
          exact hrecv
        · rw [(unlockSucc_fields _ _).2.2.2]
          exact hskipf
        · intro t ht hts
          rcases unlockSucc_mem ht with ht' | ht'
          · exact absurd hts (hrestS t ht')
          · rw [(popped_fields st rest).1, hall, hbs, hbnonce] at ht'
            exact ht'
        · rcases unlockSucc_cases (popped st rest) best with ⟨_, heq⟩ | ⟨u, hu, heq⟩
          · rw [heq]
            show senderCount S rest ≤ 1
            omega
          · rw [heq]
            dsimp only
            unfold indInsert
            split
            · show senderCount S rest ≤ 1
              omega
            · rw [senderCount_cons]
              have hceq : senderCount S (popped st rest).independent =
                  senderCount S rest := rfl
              rw [hceq]
              split <;> omega
        · show sProj S [best] = List.range' m (m + 1 - m)
          rw [sProj_single_mem hbs, hbnonce]
          have h1 : m + 1 - m = 1 := by omega
          rw [h1]
          rfl
      · -- the popped transaction belongs to another sender
        refine ⟨m, Nat.le_refl m, ⟨?_, ?_, ?_, ?_, ?_⟩, ?_⟩
        · rw [(unlockSucc_fields _ _).1]
          exact hall
        · rw [(unlockSucc_fields _ _).2.2.1]
          exact hrecv
        · rw [(unlockSucc_fields _ _).2.2.2]
          exact hskipf
        · intro t ht hts
          rcases unlockSucc_mem ht with ht' | ht'
          · exact hindc t (hsub ht') hts
          · obtain ⟨_, hts', _⟩ := allLookup_eq_some ht'
            exact absurd (show best.sender = S by rw [← hts']; exact hts) hbs
        · rcases unlockSucc_cases (popped st rest) best with ⟨_, heq⟩ | ⟨u, hu, heq⟩
          · rw [heq]
            show senderCount S rest ≤ 1
            omega
          · rw [heq]
            dsimp only
            unfold indInsert
            split
            · show senderCount S rest ≤ 1
              omega
            · rw [senderCount_cons]
              have hceq : senderCount S (popped st rest).independent =
                  senderCount S rest := rfl
              rw [hceq]
              obtain ⟨_, hus, _⟩ := allLookup_eq_some hu
              rw [if_neg (by simp [hus, hbs])]
              omega
        · show sProj S [best] = List.range' m (m - m)
          rw [sProj_single_not hbs]
          have h0 : m - m = 0 := by omega
          rw [h0]
          rfl

theorem runOps_C7 (S : Nat) (A : List PoolTx) :
    ∀ (ops : List PoolOp) (st : BestState) (m : Nat), C7Inv S A m st →
      (∀ op ∈ ops, op = PoolOp.next ∨ ∃ u, op = PoolOp.markInvalid u) →
      ∃ m', m ≤ m' ∧ C7Inv S A m' (runOps st ops).2 ∧
        sProj S (runOps st ops).1 = List.range' m (m' - m) := by
  intro ops
  induction ops with
  | nil =>
    intro st m hinv _
    have hres : runOps st [] = ([], st) := rfl
    rw [hres]
    exact ⟨m, Nat.le_refl m, hinv, by simp [sProj, Nat.sub_self]⟩
  | cons op ops ih =>
    intro st m hinv hops
    have hopsrest : ∀ op' ∈ ops, op' = PoolOp.next ∨ ∃ u, op' = PoolOp.markInvalid u :=
      fun op' h => hops op' (List.mem_cons_of_mem _ h)
    rcases hops op (List.mem_cons_self _ _) with hop | ⟨u, hop⟩ <;> subst hop
    · -- next
      obtain ⟨m1, hle1, hinv1, hproj1⟩ := nextAux_C7 S A (bestFuel st) st m hinv
      obtain ⟨m2, hle2, hinv2, hproj2⟩ := ih (bestNext st).2 m1 hinv1 hopsrest
      have happ : applyOp st PoolOp.next = nextAux (bestFuel st) st := rfl
      refine ⟨m2, Nat.le_trans hle1 hle2, ?_, ?_⟩
      · rw [runOps_cons]
        exact hinv2
      · rw [runOps_cons, happ, sProj_append, hproj1]
        have hproj2' : sProj S (runOps (nextAux (bestFuel st) st).2 ops).1 =
            List.range' m1 (m2 - m1) := hproj2
        rw [hproj2']
        exact range'_glue hle1 hle2
    · -- mark_invalid: the snapshot structure is untouched
      have hinv' : C7Inv S A m (markInvalid st u) :=
        ⟨hinv.1, hinv.2.1, hinv.2.2.1, hinv.2.2.2.1, hinv.2.2.2.2⟩
      obtain ⟨m2, hle2, hinv2, hproj2⟩ := ih (markInvalid st u) m hinv' hopsrest
      refine ⟨m2, hle2, ?_, ?_⟩
      · rw [runOps_cons]
        exact hinv2
      · rw [runOps_cons]
        have hnil : (applyOp st (PoolOp.markInvalid u)).1.toList = [] := rfl
        rw [hnil, List.nil_append]
        exact hproj2

/-- C7 (amended): over a frozen gapless snapshot — no live late-arrival
channel and no blob skipping — in which `low` bounds sender `S`'s pool
nonces from below and the independent set holds at most the single pool
entry of `S` at nonce `low`, any interleaving of `next` and `mark_invalid`
operations yields, projected onto `S`, exactly a contiguous strictly
nonce-ascending range starting at `low`.  The projection need not stop at
the first invalidation point: invalidating an already-popped transaction
does not prevent its already-unlocked successor from being yielded (see the
counterexample). -/
theorem best_iter_sender_projection (S low : Nat) (st : BestState)
    (ops : List PoolOp)
    (hrecv : st.newTxReceiver = none) (hskip : st.skipBlobs = false)
    (hind : ∀ t ∈ st.independent, t.sender = S → allLookup st.all S low = some t)
    (hcount : senderCount S st.independent ≤ 1)
    (hlow : ∀ t ∈ st.all, t.sender = S → low ≤ t.nonce)
    (hops : ∀ op ∈ ops, op = PoolOp.next ∨ ∃ u, op = PoolOp.markInvalid u) :
    ∃ k, sProj S (runOps st ops).1 = List.range' low k := by
  have hinv : C7Inv S st.all low st := ⟨rfl, hrecv, hskip, hind, hcount⟩
  obtain ⟨m', _, _, hproj⟩ := runOps_C7 S st.all ops st low hinv hops
  exact ⟨m' - low, hproj⟩

/-- C7 counterexample (the claim's "up to the first invalidation point" is
false on the code): over `exState` the yields run past the invalidation
point — `exTx 2 12` is still yielded although its ancestor `exTx 1 11` was
marked invalid before the final `next`. -/
theorem best_iter_projection_passes_invalidation :
    (runOps exState [PoolOp.next, PoolOp.next, PoolOp.markInvalid (exTx 1 11),
        PoolOp.next]).1 = [exTx 0 10, exTx 1 11, exTx 2 12] ∧
      (exTx 1 11).hash ∈ ((runOps exState [PoolOp.next, PoolOp.next,
        PoolOp.markInvalid (exTx 1 11)]).2).invalid ∧
      (exTx 1 11).nonce < (exTx 2 12).nonce ∧
      (exTx 2 12).sender = (exTx 1 11).sender := by
  decide

/-- Witness for the amended C7 theorem over the concrete snapshot
`exState`. -/
theorem best_iter_sender_projection_witness :
    (∀ t ∈ exState.independent, t.sender = 1 →
        allLookup exState.all 1 0 = some t) ∧
      ∃ k, sProj 1 (runOps exState [PoolOp.next, PoolOp.next]).1 =
        List.range' 0 k :=
  ⟨by decide, best_iter_sender_projection 1 0 exState [PoolOp.next, PoolOp.next]
    rfl rfl (by decide) (by decide) (by decide)
    (fun op hop => by
      rcases List.mem_cons.mp hop with h | h
      · exact Or.inl h
      · exact Or.inl (List.mem_singleton.mp h))⟩

end RethSpec